import Mathlib

/-!
Verification of the TAG-to-ACG compiler (`acgtag.py`).

The Python source is embedded shallowly: trees become a nested inductive
type, the mutable traversals become explicit state-passing functions, the
module-level counters become threaded `Nat` arguments, and the one failure
point (the `KeyError` raised by the branching analysis when an undeclared
uppercase symbol is looked up) becomes an `Option`.
-/

namespace AcgTag

/-- Tree node of the TAG grammar: root symbol, ordered children, the
footnode and nonadjoining flags set while parsing the bracketed symbol,
the identifier assigned by tree numbering, and the variable name stamped
during term realization (both `Option`, mirroring Python's `None`). -/
inductive Tree : Type where
  | node : String → List Tree → Bool → Bool → Option String → Option String → Tree

/-- Root symbol of a node. -/
def Tree.root : Tree → String
  | .node r _ _ _ _ _ => r

/-- Children of a node. -/
def Tree.children : Tree → List Tree
  | .node _ cs _ _ _ _ => cs

/-- Footnode flag of a node. -/
def Tree.footnode : Tree → Bool
  | .node _ _ fn _ _ _ => fn

/-- Nonadjoining flag of a node. -/
def Tree.nonadjoining : Tree → Bool
  | .node _ _ _ na _ _ => na

/-- Identifier of a node (`C_TI<n>` / `C_TA<n>` on whole-tree roots). -/
def Tree.identifier : Tree → Option String
  | .node _ _ _ _ idf _ => idf

/-- Variable name of a node, stamped during term realization. -/
def Tree.varname : Tree → Option String
  | .node _ _ _ _ _ vn => vn

/-- Embeds `ACG.is_nonterminal`: a symbol is a nonterminal iff its first
character is uppercase (`node[0].isupper()`); the empty symbol, on which
the Python would raise, is treated as a terminal. -/
def is_nonterminal (s : String) : Bool :=
  match s.data with
  | [] => false
  | c :: _ => c.isUpper

/-- Character-list version of Python's leading-match test used by
`endsWithStr`. -/
def leadMatch : List Char → List Char → Bool
  | [], _ => true
  | _ :: _, [] => false
  | c :: cs, d :: ds => c == d && leadMatch cs ds

/-- Embeds Python's `str.endswith`. -/
def endsWithStr (s suffix : String) : Bool :=
  leadMatch suffix.data.reverse s.data.reverse

/-- Embeds Python's `str.rstrip(chars)`: removes every trailing character
that belongs to the given character set (not the suffix as a whole). -/
def rstripChars (s : String) (cs : List Char) : String :=
  ⟨(s.data.reverse.dropWhile (fun c => cs.contains c)).reverse⟩

/-- Embeds `Tree.__init__`: checks for the `_NA` marker (only on symbols
classified as nonterminals), then for the `*` footnode marker, stripping
each with `rstrip`, and stores the remaining symbol as the node's root. -/
def mkTreeP (root : String) (children : List Tree) : Tree :=
  let p1 : String × Bool :=
    if is_nonterminal root && endsWithStr root "_NA" then
      (rstripChars root ['_', 'N', 'A'], true)
    else (root, false)
  let p2 : String × Bool :=
    if endsWithStr p1.1 "*" then (rstripChars p1.1 ['*'], true)
    else (p1.1, false)
  Tree.node p2.1 children p2.2 p1.2 none none

mutual

/-- Depth-first pre-order listing of the nodes of a tree (used only to
state specification-side properties; the code-side traversals are
embedded separately below). -/
def preorder : Tree → List Tree
  | .node r cs fn na idf vn => .node r cs fn na idf vn :: preorderList cs

/-- Pre-order listing of a forest, left to right. -/
def preorderList : List Tree → List Tree
  | [] => []
  | t :: ts => preorder t ++ preorderList ts

end

/-- Joins a list of strings with a separator, embedding Python's
`sep.join(xs)`. -/
def joinSep (sep : String) : List String → String
  | [] => ""
  | x :: rest => rest.foldl (fun acc y => acc ++ sep ++ y) x

/-- State of `ACG.typeForTree`'s traversal: the `interior_nodes` list, the
`substitution_nodes` list, and the `footnodeIsNonadjoining` flag. -/
abbrev TftSt := List String × List String × Bool

mutual

/-- Embeds the nested `traverse` of `ACG.typeForTree`: records the node's
argument type (adjunction site if it has children, substitution site if it
is a leaf, skipping footnodes and nonadjoining nodes), recurses into the
children, then checks for a nonadjoining footnode. -/
def tftNode : Tree → TftSt → TftSt
  | .node r cs fn na _ _, st =>
    let st1 : TftSt :=
      if is_nonterminal r && !fn then
        if cs.length > 0 then
          (if !na then (st.1 ++ [r ++ "_A"], st.2.1, st.2.2) else st)
        else
          (if !na then (st.1, st.2.1 ++ [r ++ "_S"], st.2.2) else st)
      else st
    let st2 := tftList cs st1
    if fn && na then (st2.1, st2.2.1, true) else st2

/-- Runs `tftNode` over a list of children, left to right. -/
def tftList : List Tree → TftSt → TftSt
  | [], st => st
  | t :: ts, st => tftList ts (tftNode t st)

end

/-- Embeds `ACG.typeForTree` up to the final `" -> ".join`: the list
`interior_nodes + substitution_nodes + root` whose join is the type. -/
def typeForTreeParts (t : Tree) (initial : Bool) : List String :=
  let st := tftNode t ([], [], false)
  let root : String :=
    if initial then t.root ++ "_S"
    else if st.2.2 then t.root ++ "_A"
    else t.root ++ "_A -> " ++ t.root ++ "_A"
  st.1 ++ (st.2.1 ++ [root])

/-- Embeds `ACG.typeForTree`: the ACG type of an elementary tree. -/
def typeForTree (t : Tree) (initial : Bool) : String :=
  joinSep " -> " (typeForTreeParts t initial)

/-- Adjunction-site test on one node: nonterminal, not a footnode, not
nonadjoining, with children; yields the node's `<root>_A` argument type. -/
def adjF (nd : Tree) : Option String :=
  if is_nonterminal nd.root && !nd.footnode && !nd.nonadjoining && !nd.children.isEmpty
  then some (nd.root ++ "_A") else none

/-- Substitution-site test on one node: nonterminal, not a footnode, not
nonadjoining leaf; yields the node's `<root>_S` argument type. -/
def subF (nd : Tree) : Option String :=
  if is_nonterminal nd.root && !nd.footnode && !nd.nonadjoining && nd.children.isEmpty
  then some (nd.root ++ "_S") else none

/-- Nonadjoining-footnode test on one node. -/
def fooP (nd : Tree) : Bool :=
  nd.footnode && nd.nonadjoining

/-- Specification-side list of adjunction-site argument types of a tree,
in depth-first pre-order. -/
def adjSiteTypes (t : Tree) : List String :=
  (preorder t).filterMap adjF

/-- Specification-side list of substitution-site argument types of a
tree, in depth-first pre-order. -/
def subSiteTypes (t : Tree) : List String :=
  (preorder t).filterMap subF

/-- Specification-side test for a nonadjoining footnode anywhere in the
tree, at any nesting depth. -/
def hasNAFootnode (t : Tree) : Bool :=
  (preorder t).any fooP

/-- Forest version of `adjSiteTypes`. -/
def adjTypesList (ts : List Tree) : List String :=
  (preorderList ts).filterMap adjF

/-- Forest version of `subSiteTypes`. -/
def subTypesList (ts : List Tree) : List String :=
  (preorderList ts).filterMap subF

/-- Forest version of `hasNAFootnode`. -/
def hasNAFootList (ts : List Tree) : Bool :=
  (preorderList ts).any fooP

/-- Nodes whose variable lands in `interiorVars` during term realization:
nonterminal, not nonadjoining, with children (footnodes included). -/
def adjVarP (nd : Tree) : Bool :=
  is_nonterminal nd.root && !nd.nonadjoining && !nd.children.isEmpty

/-- Nodes whose variable lands in `substitutionVars` during term
realization: nonterminal, not nonadjoining leaves (footnodes included). -/
def subVarP (nd : Tree) : Bool :=
  is_nonterminal nd.root && !nd.nonadjoining && nd.children.isEmpty

/-- Nodes that receive a bound variable of their own during term
realization: nonterminal and not nonadjoining, footnodes included. -/
def boundVarP (nd : Tree) : Bool :=
  is_nonterminal nd.root && !nd.nonadjoining

/-- The node count used by claim C2: nonterminal, neither a footnode nor
nonadjoining. -/
def claimVarP (nd : Tree) : Bool :=
  is_nonterminal nd.root && !nd.footnode && !nd.nonadjoining

/-- Replaces a node's identifier, embedding `tree.identifier = ...`. -/
def Tree.withIdentifier : Tree → String → Tree
  | .node r cs fn na _ vn, idf => .node r cs fn na (some idf) vn

/-- Embeds one of the two loops of `TAG.numberTrees`: walks the trees in
grammar order, stamping `<pre><count>` on each root and incrementing the
shared counter; returns the stamped trees and the final counter. -/
def numberLoop (pre : String) : List Tree → Nat → List Tree × Nat
  | [], c => ([], c)
  | t :: ts, c =>
    let t' := t.withIdentifier (pre ++ toString c)
    let rest := numberLoop pre ts (c + 1)
    (t' :: rest.1, rest.2)

/-- Embeds `TAG.numberTrees`: one counter starting at 0 is shared across
both families, initial trees (prefix `C_TI`) numbered before auxiliary
trees (prefix `C_TA`). -/
def numberTrees (initials auxiliaries : List Tree) : List Tree × List Tree :=
  let ni := numberLoop "C_TI" initials 0
  let na := numberLoop "C_TA" auxiliaries ni.2
  (ni.1, na.1)

/-- Raw input record of the compiler (the parsed JSON file, with the tree
descriptions already parsed into `Tree` values by `TAG.parseTrees`). -/
structure TagInput where
  terminals : List String
  nonterminals : List String
  initials : List Tree
  auxiliaries : List Tree
  distinguished : String

/-- The grammar after `TAG.__init__` has run: same fields, with the trees
numbered. -/
structure TAG where
  terminals : List String
  nonterminals : List String
  initials : List Tree
  auxiliaries : List Tree
  distinguished : String

/-- Embeds `TAG.__init__` (minus the out-of-scope JSON and S-expression
parsing): stores the fields and numbers the trees. -/
def mkTAG (inp : TagInput) : TAG :=
  let nt := numberTrees inp.initials inp.auxiliaries
  { terminals := inp.terminals
    nonterminals := inp.nonterminals
    initials := nt.1
    auxiliaries := nt.2
    distinguished := inp.distinguished }

/-- Signature model: a name, an ordered list of type declarations, and an
ordered list of (constant, type) pairs, appended in generation order. -/
structure Signature where
  name : String
  types : List String
  constants : List (String × String)

/-- Identifier of a tree as used for constant names; Python interpolates
`None` when the identifier was never assigned. -/
def idOf (t : Tree) : String :=
  (t.identifier).getD "None"

/-- Embeds `ACG.generateDerivationTrees`: two types per nonterminal, one
constant per elementary tree (initials first), then the `I_<nonterminal>`
constants. -/
def generateDerivationTrees (tag : TAG) : Signature :=
  { name := "Derivation_trees"
    types := tag.nonterminals.flatMap fun n => [n ++ "_S", n ++ "_A"]
    constants :=
      tag.initials.map (fun t => (idOf t, typeForTree t true))
        ++ tag.auxiliaries.map (fun t => (idOf t, typeForTree t false))
        ++ tag.nonterminals.map (fun n => ("I_" ++ n, n ++ "_A")) }

/-- First-match association lookup, used to inspect generated constant
tables in the theorems. -/
def assocGet {α : Type} (k : String) : List (String × α) → Option α
  | [] => none
  | (k', v) :: rest => if k' = k then some v else assocGet k rest

/-- Python dict mapping nonterminal symbols to branching counts, in
insertion order. -/
abbrev Dict := List (String × Nat)

/-- Keyed read of a dict; `none` models the `KeyError` raised by
`branching[root]` when the key is absent. -/
def dictGet (k : String) : Dict → Option Nat
  | [] => none
  | (k', v) :: rest => if k' = k then some v else dictGet k rest

/-- Keyed write of an existing entry (dict update keeps the entry's
position); writing an absent key leaves the dict unchanged, which never
happens in the embedded code because the read of the same key precedes
every write. -/
def dictSet (k : String) (v : Nat) : Dict → Dict
  | [] => []
  | (k', v') :: rest =>
    if k' = k then (k', v) :: rest else (k', v') :: dictSet k v rest

/-- Dict insertion as in a Python dict comprehension: an existing key is
updated in place, a new key is appended at the end. -/
def dictInsert (k : String) (v : Nat) (d : Dict) : Dict :=
  if k ∈ d.map Prod.fst then dictSet k v d else d ++ [(k, v)]

/-- Embeds `{ nonterminal: 0 for nonterminal in self.tag.nonterminals }`. -/
def dictOfKeys (ks : List String) : Dict :=
  ks.foldl (fun d k => dictInsert k 0 d) []

mutual

/-- Embeds the nested `traverse` of `ACG.generateDerivedTreeConstants`:
on a nonterminal node it reads `branching[root]` (failing like the Python
`KeyError` when the symbol is not a declared nonterminal), raises the
stored maximum if this node has more children, and recurses into the
children; on any other node it does nothing — in particular it does not
recurse below a terminal-labeled node, because the Python recursion sits
inside the `is_nonterminal` branch. -/
def branchNode : Tree → Dict → Option Dict
  | .node r cs _ _ _ _, b =>
    if is_nonterminal r then
      match dictGet r b with
      | none => none
      | some cur =>
        let b1 := if cs.length > cur then dictSet r cs.length b else b
        branchList cs b1
    else some b

/-- Runs `branchNode` over a list of children, aborting on failure. -/
def branchList : List Tree → Dict → Option Dict
  | [], b => some b
  | t :: ts, b =>
    match branchNode t b with
    | none => none
    | some b' => branchList ts b'

end

/-- Embeds the `for tree in (self.tag.initials + self.tag.auxiliaries)`
loop over whole elementary trees. -/
def branchForest : List Tree → Dict → Option Dict
  | [], b => some b
  | t :: ts, b =>
    match branchNode t b with
    | none => none
    | some b' => branchForest ts b'

/-- Embeds `ACG.generateDerivedTreeConstants`: computes per-nonterminal
maximal branching, then emits one `(symbol, size)` record
`("<nonterminal>_<i>", i)` for every `i` in `range(1, branching[n] + 1)`,
iterating the dict in insertion order. -/
def generateDerivedTreeConstants (tag : TAG) : Option (List (String × Nat)) :=
  (branchForest (tag.initials ++ tag.auxiliaries)
      (dictOfKeys tag.nonterminals)).map fun b =>
    b.flatMap fun p =>
      (List.range p.2).map fun idx => (p.1 ++ "_" ++ toString (idx + 1), idx + 1)

/-- Embeds `ACG.treeTypeOfLength`: `x` copies of `tree` joined by arrows. -/
def treeTypeOfLength (x : Nat) : String :=
  joinSep " -> " (List.replicate x "tree")

/-- Embeds `ACG.generateDerivedTrees` given the constants records: the
base type `tree`, one constant per terminal, the tree constructors, and
`Empty`. -/
def derivedTreesSigOf (tag : TAG) (cs : List (String × Nat)) : Signature :=
  { name := "Derived_trees"
    types := [treeTypeOfLength 1]
    constants :=
      tag.terminals.map (fun s => (s, treeTypeOfLength 1))
        ++ cs.map (fun p => (p.1, treeTypeOfLength (p.2 + 1)))
        ++ [("Empty", treeTypeOfLength 1)] }

/-- Embeds `ACG.generateDerivedTrees` composed with the branching
analysis it depends on. -/
def generateDerivedTrees (tag : TAG) : Option Signature :=
  (generateDerivedTreeConstants tag).map (derivedTreesSigOf tag)

/-- State of the `varTraverse` pass of `ACG.lambdaRealizationOfTree`: the
counter `i`, the `interiorVars` list and the `substitutionVars` list. -/
abbrev VarSt := Nat × List String × List String

mutual

/-- Embeds the nested `varTraverse` of `ACG.lambdaRealizationOfTree`:
stamps `lvar<i>` on every node, and for a nonterminal node appends the
name to `interiorVars` (children present) or `substitutionVars` (leaf)
unless the node is nonadjoining — the footnode flag is not consulted —
then increments `i` and recurses into the children. -/
def varTraverse : Tree → VarSt → Tree × VarSt
  | .node r cs fn na idf _, st =>
    let vn := "lvar" ++ toString st.1
    let st1 : VarSt :=
      if is_nonterminal r then
        if cs.length > 0 then
          (st.1 + 1, (if !na then st.2.1 ++ [vn] else st.2.1), st.2.2)
        else
          (st.1 + 1, st.2.1, (if !na then st.2.2 ++ [vn] else st.2.2))
      else st
    let rec1 := varTraverseList cs st1
    (.node r rec1.1 fn na idf (some vn), rec1.2)

/-- Runs `varTraverse` over a list of children, threading the state. -/
def varTraverseList : List Tree → VarSt → List Tree × VarSt
  | [], st => ([], st)
  | t :: ts, st =>
    let r1 := varTraverse t st
    let r2 := varTraverseList ts r1.2
    (r1.1 :: r2.1, r2.2)

end

/-- Option-valued variable name rendered as Python renders it in an
f-string (`None` when absent). -/
def varStr (o : Option String) : String :=
  o.getD "None"

mutual

/-- Embeds the nested `constructExpression` of
`ACG.lambdaRealizationOfTree`, run on the annotated copy: a terminal
evaluates to its symbol; a footnode to `lvar` (nonadjoining) or
`<var> lvar`; any other nonterminal to the arity-indexed constructor
applied to the children's expressions, further applied to the node's own
variable unless the node is nonadjoining. -/
def constructExpression : Tree → String
  | .node r cs fn na _ vn =>
    if !is_nonterminal r then r
    else if fn then
      if na then "lvar" else varStr vn ++ " lvar"
    else
      let ces := constructExpressionList cs
      if na then
        "(" ++ r ++ "_" ++ toString cs.length ++ " " ++ joinSep " " ces ++ ")"
      else
        varStr vn ++ " (" ++ r ++ "_" ++ toString cs.length ++ " "
          ++ joinSep " " ces ++ ")"

/-- Parenthesized child expressions, in order. -/
def constructExpressionList : List Tree → List String
  | [] => []
  | t :: ts => ("(" ++ constructExpression t ++ ")") :: constructExpressionList ts

end

/-- The list of variables bound by the lambda prefix of a realized term:
`interiorVars + substitutionVars + footnodeVars`, where `footnodeVars` is
the single reserved name `lvar` exactly when the tree is auxiliary. -/
def realizationVars (t : Tree) (initial : Bool) : List String :=
  let st := (varTraverse t (0, [], [])).2
  st.2.1 ++ st.2.2 ++ (if initial then [] else ["lvar"])

/-- The realized lambda term of a tree: the binder line over
`realizationVars` followed by the body built from the annotated copy. -/
def realizationExpr (t : Tree) (initial : Bool) : String :=
  let annotated := (varTraverse t (0, [], [])).1
  let lambdaVars := "lambda " ++ joinSep " " (realizationVars t initial) ++ "."
  lambdaVars ++ " " ++ constructExpression annotated

/-- Embeds `ACG.lambdaRealizationOfTree` together with its frame effect:
the first component is the returned lambda expression, the second is the
caller-visible tree after the call. The source rebinds its parameter to
`copy.deepcopy(tree)` before stamping any variable name, so every
mutation hits the private copy and the caller's tree is returned
unchanged. -/
def lambdaRealizationOfTree (t : Tree) (initial : Bool) : String × Tree :=
  (realizationExpr t initial, t)

/-- Lexicon model: a plain lexicon holds its mappings; the composed
lexicon is only a deferred reference to its two operand lexicons. -/
inductive LexiconE : Type where
  | plain : String → String → String → List (String × String) → LexiconE
  | composed : String → String → String → LexiconE

/-- Embeds `ACG.generateStringSignature`. -/
def stringsSigOf (tag : TAG) : Signature :=
  { name := "Strings"
    types := ["o", "string = o->o"]
    constants :=
      ("infix + = lambda x y z. x (y z)", "string -> string -> string")
        :: tag.terminals.map (fun s => (s, "string"))
        ++ [("E = lambda lvar. lvar", "string")] }

/-- Embeds `ACG.generateAbsLexicon`: type mappings per nonterminal, the
realized term of every elementary tree (initials first), then the
identity term for every `I_<nonterminal>`. -/
def absLexiconOf (tag : TAG) : LexiconE :=
  .plain "Abs" "Derivation_trees" "Derived_trees"
    (tag.nonterminals.flatMap
        (fun n => [(n ++ "_S", "tree"), (n ++ "_A", "tree -> tree")])
      ++ tag.initials.map (fun t => (idOf t, (lambdaRealizationOfTree t true).1))
      ++ tag.auxiliaries.map (fun t => (idOf t, (lambdaRealizationOfTree t false).1))
      ++ tag.nonterminals.map (fun n => ("I_" ++ n, "lambda lvar. lvar")))

/-- Embeds the nested `concatFunctionOfLength` of
`ACG.generateYieldLexicons`. -/
def concatFunctionOfLength (length : Nat) : String :=
  let vs := (List.range length).map fun i => "x" ++ toString i
  "lambda " ++ joinSep " " vs ++ ". " ++ joinSep " + " vs

/-- Embeds `ACG.generateYieldLexicons` given the constants records. -/
def yieldLexiconOf (tag : TAG) (cs : List (String × Nat)) : LexiconE :=
  .plain "Yield" "Derived_trees" "Strings"
    (("tree", "string")
      :: tag.terminals.map (fun s => (s, s))
      ++ cs.map (fun p => (p.1, concatFunctionOfLength p.2))
      ++ [("Empty", "E")])

/-- Embeds `Signature.output`: the text block written to the output file
for one signature. -/
def renderSignature (s : Signature) : String :=
  "signature " ++ s.name ++ " = \n"
    ++ String.join (s.types.map fun t => "    " ++ t ++ ": type;\n")
    ++ "\n"
    ++ String.join (s.constants.map fun p => "    " ++ p.1 ++ ": " ++ p.2 ++ ";\n")
    ++ "end\n\n"

/-- Embeds `Lexicon.output` and `ComposedLexicon.output`. -/
def renderLexicon : LexiconE → String
  | .plain n f s ms =>
    "lexicon " ++ n ++ "(" ++ f ++ "): " ++ s ++ " = \n"
      ++ String.join (ms.map fun p => "    " ++ p.1 ++ " := " ++ p.2 ++ ";\n")
      ++ "end\n\n"
  | .composed n f s => "lexicon " ++ n ++ " = " ++ s ++ " << " ++ f ++ "\n\n"

/-- Embeds `ACG.generateACG` followed by `ACG.output`: generates the
three signatures and three lexicons in pipeline order and serializes
them; yields `none` when the branching analysis raises. -/
def acgRender (tag : TAG) : Option String :=
  match generateDerivedTreeConstants tag with
  | none => none
  | some cs =>
    let sigs := [generateDerivationTrees tag, derivedTreesSigOf tag cs, stringsSigOf tag]
    let lexs := [absLexiconOf tag, yieldLexiconOf tag cs,
      LexiconE.composed "Full" "Abs" "Yield"]
    some (String.join (sigs.map renderSignature)
      ++ String.join (lexs.map renderLexicon))

/-- The whole compiler on one input record: construct and number the
grammar, then generate and serialize the ACG. -/
def compileDoc (inp : TagInput) : Option String :=
  acgRender (mkTAG inp)

/-- One run of the generation pipeline on an input: some grammar value is
constructed from the input, and the output document is serialized from
it. Runs are modeled as a relation so that determinism across runs is a
statement about every pair of runs. -/
def Run (inp : TagInput) (out : String) : Prop :=
  ∃ tag, tag = mkTAG inp ∧ acgRender tag = some out

/-- Concrete scenario 1 of the specification: terminals `john`, `sleeps`;
nonterminals `S`, `NP`, `VP`; the initial trees `S (NP) (VP (sleeps))`
and `NP (john)`. -/
def scenarioOne : TAG :=
  mkTAG
    { terminals := ["john", "sleeps"]
      nonterminals := ["S", "NP", "VP"]
      initials :=
        [mkTreeP "S" [mkTreeP "NP" [], mkTreeP "VP" [mkTreeP "sleeps" []]],
         mkTreeP "NP" [mkTreeP "john" []]]
      auxiliaries := []
      distinguished := "S" }

/-- Auxiliary tree `A (A*)` whose footnode is not nonadjoining: its
realized term binds a variable for the footnode. -/
def footVarTree : Tree :=
  mkTreeP "A" [mkTreeP "A*" []]

/-- Grammar whose only `NP`-labeled node (with two children) sits below a
terminal-labeled node, where the branching traversal never looks. -/
def hiddenBranchTAG : TAG :=
  mkTAG
    { terminals := ["a", "b", "x"]
      nonterminals := ["NP"]
      initials := [mkTreeP "x" [mkTreeP "NP" [mkTreeP "a" [], mkTreeP "b" []]]]
      auxiliaries := []
      distinguished := "NP" }

/-- Grammar containing the undeclared uppercase symbol `Q` below a
terminal-labeled root, out of the branching traversal's reach. -/
def hiddenUpperTAG : TAG :=
  mkTAG
    { terminals := ["x"]
      nonterminals := ["S"]
      initials := [mkTreeP "x" [mkTreeP "Q" []]]
      auxiliaries := []
      distinguished := "S" }

/-- Grammar whose initial tree's root is the undeclared uppercase symbol
`Q`: the branching lookup fails immediately. -/
def badRootTAG : TAG :=
  mkTAG
    { terminals := []
      nonterminals := []
      initials := [mkTreeP "Q" []]
      auxiliaries := []
      distinguished := "Q" }

/-- Specification-side maximal branching of symbol `n` within one tree:
the maximum number of children over all nodes labeled `n`, at any depth
(including below terminal-labeled nodes). -/
def maxChT (t : Tree) (n : String) : Nat :=
  (preorder t).foldr
    (fun nd acc => if nd.root = n then max nd.children.length acc else acc) 0

/-- Specification-side maximal branching of symbol `n` over a forest. -/
def maxChForest (ts : List Tree) (n : String) : Nat :=
  ts.foldr (fun t acc => max (maxChT t n) acc) 0

/-- Specification-side maximal branching of `n` over the whole grammar:
the maximum number of children over all nodes labeled `n` across all
initial and auxiliary trees. -/
def maxChildrenSpec (tag : TAG) (n : String) : Nat :=
  maxChForest (tag.initials ++ tag.auxiliaries) n

/-- Every symbol occurring in any elementary tree whose first character
is uppercase is a declared nonterminal (the precondition of claim C10). -/
def allUpperDeclared (tag : TAG) : Prop :=
  ∀ t ∈ tag.initials ++ tag.auxiliaries, ∀ nd ∈ preorder t,
    is_nonterminal nd.root = true → nd.root ∈ tag.nonterminals

/-- Every terminal-labeled node of every elementary tree is a leaf (true
of every well-formed TAG, where only nonterminals have children). -/
def termLeaves (tag : TAG) : Prop :=
  ∀ t ∈ tag.initials ++ tag.auxiliaries, ∀ nd ∈ preorder t,
    is_nonterminal nd.root = false → nd.children.isEmpty = true

/-- Some elementary tree contains, anywhere, a node whose symbol starts
with an uppercase character but is not a declared nonterminal. -/
def hasUndeclaredUpper (tag : TAG) : Prop :=
  ∃ t ∈ tag.initials ++ tag.auxiliaries, ∃ nd ∈ preorder t,
    is_nonterminal nd.root = true ∧ nd.root ∉ tag.nonterminals

/-- A node carrying an uppercase symbol that is missing from the key list
`K`, reachable from the tree's root through a chain of nonterminal-labeled
ancestors — exactly the nodes on which the branching traversal's lookup
can fire. -/
inductive ReachBad (K : List String) : Tree → Prop where
  | here (r : String) (cs : List Tree) (fn na : Bool) (idf vn : Option String) :
      is_nonterminal r = true → r ∉ K → ReachBad K (.node r cs fn na idf vn)
  | deeper (r : String) (cs : List Tree) (fn na : Bool) (idf vn : Option String)
      (c : Tree) : is_nonterminal r = true → c ∈ cs → ReachBad K c →
      ReachBad K (.node r cs fn na idf vn)

/-- Some elementary tree has a `ReachBad` node with respect to the
declared nonterminals. -/
def hasReachableUndeclared (tag : TAG) : Prop :=
  ∃ t ∈ tag.initials ++ tag.auxiliaries, ReachBad tag.nonterminals t

/-- Tiny well-formed input used to instantiate the theorems with
hypotheses: one nonterminal `S`, one terminal `a`, one initial tree
`S (a)`. -/
def tinyInput : TagInput :=
  { terminals := ["a"]
    nonterminals := ["S"]
    initials := [mkTreeP "S" [mkTreeP "a" []]]
    auxiliaries := []
    distinguished := "S" }

mutual

theorem tftNode_eq : ∀ (t : Tree) (st : TftSt),
    tftNode t st =
      (st.1 ++ adjSiteTypes t, st.2.1 ++ subSiteTypes t, st.2.2 || hasNAFootnode t)
  | .node r cs fn na idf vn, st => by
    have hl := tftList_eq cs
    cases cs with
    | nil =>
      cases fn <;> cases na <;> cases hnt : is_nonterminal r <;>
        simp [tftNode, hl, adjSiteTypes, subSiteTypes, hasNAFootnode, adjTypesList,
          subTypesList, hasNAFootList, preorder, preorderList, List.filterMap_cons,
          List.any_cons, adjF, subF, fooP, Tree.root, Tree.footnode,
          Tree.nonadjoining, Tree.children, hnt, tftList]
    | cons c cs' =>
      cases fn <;> cases na <;> cases hnt : is_nonterminal r <;>
        simp [tftNode, hl, adjSiteTypes, subSiteTypes, hasNAFootnode, adjTypesList,
          subTypesList, hasNAFootList, preorder, List.filterMap_cons,
          List.any_cons, adjF, subF, fooP, Tree.root, Tree.footnode,
          Tree.nonadjoining, Tree.children, hnt, List.append_assoc, Bool.or_assoc]

theorem tftList_eq : ∀ (ts : List Tree) (st : TftSt),
    tftList ts st =
      (st.1 ++ adjTypesList ts, st.2.1 ++ subTypesList ts, st.2.2 || hasNAFootList ts)
  | [], st => by
    simp [tftList, adjTypesList, subTypesList, hasNAFootList, preorderList]
  | t :: ts, st => by
    rw [tftList, tftNode_eq t st, tftList_eq ts]
    simp [adjTypesList, subTypesList, hasNAFootList, preorderList, adjSiteTypes,
      subSiteTypes, hasNAFootnode, List.filterMap_append, List.any_append,
      List.append_assoc, Bool.or_assoc]

end

/-- C5: for every initial tree, the inferred type is exactly the
adjunction-site argument types (in depth-first pre-order), then the
substitution-site argument types (in depth-first pre-order), then the
single result type `<root>_S`. -/
theorem initial_type_is_adjunction_then_substitution (t : Tree) :
    typeForTreeParts t true = adjSiteTypes t ++ subSiteTypes t ++ [t.root ++ "_S"] ∧
    typeForTree t true
      = joinSep " -> " (adjSiteTypes t ++ subSiteTypes t ++ [t.root ++ "_S"]) := by
  have h := tftNode_eq t ([], [], false)
  refine ⟨?_, ?_⟩ <;>
    simp [typeForTree, typeForTreeParts, h, List.append_assoc]

/-- C4: for every auxiliary tree, the result component of the inferred
type is `<root>_A` when some footnode anywhere in the tree (at any depth)
is nonadjoining, and `<root>_A -> <root>_A` otherwise. -/
theorem auxiliary_result_type (t : Tree) :
    (typeForTreeParts t false).getLast? =
      some (if hasNAFootnode t then t.root ++ "_A"
            else t.root ++ "_A -> " ++ t.root ++ "_A") := by
  have h := tftNode_eq t ([], [], false)
  simp only [typeForTreeParts, h, Bool.false_or]
  rw [← List.append_assoc, List.getLast?_concat]
  simp

mutual

theorem varTraverse_counts : ∀ (t : Tree) (st : VarSt),
    (varTraverse t st).2.2.1.length + (varTraverse t st).2.2.2.length
      = st.2.1.length + st.2.2.length
        + (preorder t).countP (fun nd => boundVarP nd)
  | .node r cs fn na idf vn, st => by
    have hl := varTraverseList_counts cs
    cases cs with
    | nil =>
      cases hnt : is_nonterminal r <;> cases na <;>
        simp [varTraverse, varTraverseList, preorder, preorderList,
          List.countP_cons, boundVarP, Tree.root, Tree.nonadjoining, hnt] <;>
        omega
    | cons c cs' =>
      cases hnt : is_nonterminal r <;> cases na <;>
        simp [varTraverse, hl, preorder, List.countP_cons, boundVarP,
          Tree.root, Tree.nonadjoining, hnt] <;> omega

theorem varTraverseList_counts : ∀ (ts : List Tree) (st : VarSt),
    (varTraverseList ts st).2.2.1.length + (varTraverseList ts st).2.2.2.length
      = st.2.1.length + st.2.2.length
        + (preorderList ts).countP (fun nd => boundVarP nd)
  | [], st => by simp [varTraverseList, preorderList]
  | t :: ts, st => by
    have h1 := varTraverse_counts t st
    have h2 := varTraverseList_counts ts (varTraverse t st).2
    simp only [varTraverseList, preorderList, List.countP_append, h2, h1]
    omega

end

/-- C2 counterexample: the auxiliary tree `A (A*)` has one nonterminal
node that is neither a footnode nor nonadjoining, so the claim predicts
`1 + 1 = 2` bound variables; the realized term binds three, because the
non-nonadjoining footnode also receives a substitution variable. -/
theorem realization_binds_footnode_var :
    (realizationVars footVarTree false).length
      ≠ (preorder footVarTree).countP (fun nd => claimVarP nd) + 1 := by
  decide

/-- C2 amended: the number of variables bound by the lambda prefix of a
tree's realized term equals the number of nonterminal nodes not marked
nonadjoining — footnodes included, since `varTraverse` never consults the
footnode flag — plus the reserved footnode binder `lvar` exactly when the
tree is auxiliary. -/
theorem realizationVars_length (t : Tree) (initial : Bool) :
    (realizationVars t initial).length
      = (preorder t).countP (fun nd => boundVarP nd)
        + (if initial then 0 else 1) := by
  have h := varTraverse_counts t (0, [], [])
  simp only [List.length_nil] at h
  cases initial <;> simp [realizationVars, List.length_append] <;> omega

/-- C1 counterexample: in concrete scenario 1 the constant `C_TI1` (the
tree `NP (john)`) is typed `NP_A -> NP_S` — the root `NP` node has a
child, hence is itself an adjunction site — not `NP_S` as claimed. -/
theorem scenarioOne_second_type_not_NP_S :
    assocGet "C_TI1" (generateDerivationTrees scenarioOne).constants
        = some "NP_A -> NP_S" ∧
    assocGet "C_TI1" (generateDerivationTrees scenarioOne).constants
        ≠ some "NP_S" := by
  exact ⟨by decide, by decide⟩

/-- C1 amended: the Derivation_trees signature of concrete scenario 1
contains constants identified `C_TI0` and `C_TI1`, and the type inferred
for the second tree (`NP (john)`) is exactly `NP_A -> NP_S`. -/
theorem scenarioOne_constants :
    (assocGet "C_TI0" (generateDerivationTrees scenarioOne).constants).isSome
        = true ∧
    assocGet "C_TI1" (generateDerivationTrees scenarioOne).constants
        = some "NP_A -> NP_S" := by
  exact ⟨by decide, by decide⟩

/-- C3: evaluating the tree-description parser at the failing input
`N_NA` (the noun category marked nonadjoining): the nonadjoining flag is
set, but `rstrip("_NA")` removes every trailing character of the set
`{_, N, A}`, so the stored root is the empty symbol instead of `N`. -/
theorem parse_N_NA_strips_root :
    (mkTreeP "N_NA" []).nonadjoining = true ∧ (mkTreeP "N_NA" []).root = ""
      ∧ (mkTreeP "N_NA" []).root ≠ "N" := by
  exact ⟨by decide, by decide, by decide⟩

theorem identifier_withIdentifier (t : Tree) (s : String) :
    (t.withIdentifier s).identifier = some s := by
  cases t
  rfl

theorem numberLoop_spec (pre : String) (ts : List Tree) (c : Nat) :
    (numberLoop pre ts c).1.map Tree.identifier
        = (List.range ts.length).map (fun n => some (pre ++ toString (c + n))) ∧
    (numberLoop pre ts c).2 = c + ts.length := by
  induction ts generalizing c with
  | nil => simp [numberLoop]
  | cons t ts ih =>
    have h := ih (c + 1)
    refine ⟨?_, ?_⟩
    · rw [numberLoop]
      simp only [List.map_cons, identifier_withIdentifier, h.1,
        List.length_cons, List.range_succ_eq_map, List.map_map]
      refine congrArg₂ _ (by rw [Nat.add_zero]) ?_
      refine List.map_congr_left fun n _ => ?_
      have hn : c + 1 + n = c + (n + 1) := by omega
      simp [Function.comp, hn]
    · rw [numberLoop]
      simp only [h.2, List.length_cons]
      omega

/-- C7: with `m` initial trees, numbering assigns `C_TI0 .. C_TI(m-1)` to
the initial trees in grammar order and `C_TA(m) .. C_TA(m+k-1)` to the
auxiliary trees in grammar order — a single counter shared across both
families, initials first. -/
theorem tree_numbering (inits auxs : List Tree) :
    (numberTrees inits auxs).1.map Tree.identifier
        = (List.range inits.length).map (fun n => some ("C_TI" ++ toString n)) ∧
    (numberTrees inits auxs).2.map Tree.identifier
        = (List.range auxs.length).map
            (fun n => some ("C_TA" ++ toString (inits.length + n))) := by
  have h1 := numberLoop_spec "C_TI" inits 0
  have h2 := numberLoop_spec "C_TA" auxs (numberLoop "C_TI" inits 0).2
  refine ⟨?_, ?_⟩
  · simpa [numberTrees, Nat.zero_add] using h1.1
  · have h2' := h2.1
    rw [h1.2, Nat.zero_add] at h2'
    rw [numberTrees]
    simp only [h1.2, Nat.zero_add, h2']

/-- C8: term realization never mutates the tree it is given. The second
component of `lambdaRealizationOfTree` is the caller-visible tree after
the call; because the source rebinds its parameter to a deep copy before
stamping variable names, that tree is the input itself — no node of the
argument acquires a variable name. -/
theorem lambdaRealization_no_mutation (t : Tree) (initial : Bool) :
    (lambdaRealizationOfTree t initial).2 = t := rfl

/-- C9: the compiler is deterministic — any two runs of the generation
pipeline on the same input record produce byte-identical output
documents. -/
theorem compiler_deterministic (inp : TagInput) (o1 o2 : String) :
    Run inp o1 → Run inp o2 → o1 = o2 := by
  rintro ⟨tag1, h1, h1'⟩ ⟨tag2, h2, h2'⟩
  subst h1
  subst h2
  exact Option.some_injective _ (h1'.symm.trans h2')

theorem dictGet_append (n : String) (d1 d2 : Dict) :
    dictGet n (d1 ++ d2)
      = match dictGet n d1 with
        | some v => some v
        | none => dictGet n d2 := by
  induction d1 with
  | nil => simp [dictGet]
  | cons p rest ih =>
    obtain ⟨k, v⟩ := p
    by_cases hk : k = n <;> simp [dictGet, hk, ih]

theorem keys_dictSet (k : String) (v : Nat) (d : Dict) :
    (dictSet k v d).map Prod.fst = d.map Prod.fst := by
  induction d with
  | nil => rfl
  | cons p rest ih =>
    obtain ⟨k', v'⟩ := p
    by_cases hk : k' = k <;> simp [dictSet, hk, ih]

theorem isSome_dictGet_iff_mem (n : String) (d : Dict) :
    (dictGet n d).isSome = true ↔ n ∈ d.map Prod.fst := by
  induction d with
  | nil => simp [dictGet]
  | cons p rest ih =>
    obtain ⟨k, v⟩ := p
    by_cases hk : k = n <;> simp [dictGet, hk, ih]
    exact fun h => (hk h.symm).elim

theorem dictGet_dictSet_other (k : String) (v : Nat) (n : String) (d : Dict)
    (h : k ≠ n) : dictGet n (dictSet k v d) = dictGet n d := by
  induction d with
  | nil => rfl
  | cons p rest ih =>
    obtain ⟨k', v'⟩ := p
    simp only [dictSet]
    by_cases hk : k' = k
    · subst hk
      have hn : ¬k' = n := h
      simp [dictGet, hn]
    · simp only [if_neg hk]
      by_cases hn : k' = n
      · subst hn
        simp [dictGet]
      · simp [dictGet, hn, ih]

theorem dictGet_dictSet_self (k : String) (v : Nat) (d : Dict)
    (h : (dictGet k d).isSome = true) : dictGet k (dictSet k v d) = some v := by
  induction d with
  | nil => simp [dictGet] at h
  | cons p rest ih =>
    obtain ⟨k', v'⟩ := p
    by_cases hk : k' = k
    · simp [dictSet, dictGet, hk]
    · simp [dictGet, hk] at h
      simp [dictSet, dictGet, hk, ih h]

theorem isSome_dictGet_dictSet (k : String) (v : Nat) (n : String) (d : Dict) :
    (dictGet n (dictSet k v d)).isSome = (dictGet n d).isSome := by
  induction d with
  | nil => rfl
  | cons p rest ih =>
    obtain ⟨k', v'⟩ := p
    simp only [dictSet]
    by_cases hk : k' = k
    · subst hk
      simp only [if_pos rfl]
      by_cases hn : k' = n <;> simp [dictGet, hn]
    · simp only [if_neg hk]
      by_cases hn : k' = n <;> simp [dictGet, hn, ih]

mutual

theorem branchNode_keys : ∀ (t : Tree) (b b' : Dict),
    branchNode t b = some b' → b'.map Prod.fst = b.map Prod.fst
  | .node r cs fn na idf vn, b, b' => by
    intro h
    simp only [branchNode] at h
    by_cases hnt : is_nonterminal r
    · rw [if_pos hnt] at h
      cases hg : dictGet r b with
      | none => rw [hg] at h; cases h
      | some cur =>
        rw [hg] at h
        have hk := branchList_keys cs _ b' h
        by_cases hgt : cs.length > cur
        · rw [if_pos hgt] at hk
          rw [hk, keys_dictSet]
        · rw [if_neg hgt] at hk
          exact hk
    · rw [if_neg hnt] at h
      cases h
      rfl

theorem branchList_keys : ∀ (ts : List Tree) (b b' : Dict),
    branchList ts b = some b' → b'.map Prod.fst = b.map Prod.fst
  | [], b, b' => by
    intro h
    cases h
    rfl
  | t :: ts, b, b' => by
    intro h
    simp only [branchList] at h
    cases hg : branchNode t b with
    | none => rw [hg] at h; cases h
    | some b1 =>
      rw [hg] at h
      exact (branchList_keys ts b1 b' h).trans (branchNode_keys t b b1 hg)

end

theorem branchNode_profile (t : Tree) (b b' : Dict)
    (h : branchNode t b = some b') (n : String) :
    (dictGet n b').isSome = (dictGet n b).isSome := by
  have hkeys := branchNode_keys t b b' h
  by_cases hm : n ∈ b.map Prod.fst
  · have h1 : (dictGet n b').isSome = true :=
      (isSome_dictGet_iff_mem n b').mpr (by rw [hkeys]; exact hm)
    have h2 : (dictGet n b).isSome = true := (isSome_dictGet_iff_mem n b).mpr hm
    rw [h1, h2]
  · have h1 : (dictGet n b').isSome = false := by
      rw [Bool.eq_false_iff]
      exact fun hh => hm (by rw [← hkeys]; exact (isSome_dictGet_iff_mem n b').mp hh)
    have h2 : (dictGet n b).isSome = false := by
      rw [Bool.eq_false_iff]
      exact fun hh => hm ((isSome_dictGet_iff_mem n b).mp hh)
    rw [h1, h2]

theorem branchForest_eq_branchList (ts : List Tree) (b : Dict) :
    branchForest ts b = branchList ts b := by
  induction ts generalizing b with
  | nil => rfl
  | cons t ts ih =>
    simp only [branchForest, branchList]
    cases branchNode t b <;> simp [ih]

theorem mem_preorderList (ts : List Tree) (nd : Tree) :
    nd ∈ preorderList ts ↔ ∃ t ∈ ts, nd ∈ preorder t := by
  induction ts with
  | nil => simp [preorderList]
  | cons t ts ih => simp [preorderList, List.mem_append, ih]

theorem mem_preorder_self (r : String) (cs : List Tree) (fn na : Bool)
    (idf vn : Option String) :
    Tree.node r cs fn na idf vn ∈ preorder (.node r cs fn na idf vn) := by
  rw [preorder]
  exact List.mem_cons_self _ _

theorem mem_preorder_of_child (r : String) (cs : List Tree) (fn na : Bool)
    (idf vn : Option String) (nd : Tree) (h : nd ∈ preorderList cs) :
    nd ∈ preorder (.node r cs fn na idf vn) := by
  rw [preorder]
  exact List.mem_cons_of_mem _ h

mutual

theorem branchNode_total : ∀ (t : Tree) (b : Dict),
    (∀ nd ∈ preorder t, is_nonterminal nd.root = true →
      (dictGet nd.root b).isSome = true) →
    (branchNode t b).isSome = true
  | .node r cs fn na idf vn, b => by
    intro hd
    simp only [branchNode]
    by_cases hnt : is_nonterminal r
    · rw [if_pos hnt]
      have hr := hd (.node r cs fn na idf vn) (mem_preorder_self r cs fn na idf vn)
        (by simpa [Tree.root] using hnt)
      rw [Tree.root] at hr
      obtain ⟨cur, hcur⟩ := Option.isSome_iff_exists.mp hr
      rw [hcur]
      show (branchList cs
        (if cs.length > cur then dictSet r cs.length b else b)).isSome = true
      by_cases hgt : cs.length > cur
      · rw [if_pos hgt]
        refine branchList_total cs _ fun nd hnd hnt' => ?_
        rw [isSome_dictGet_dictSet]
        exact hd nd (mem_preorder_of_child r cs fn na idf vn nd hnd) hnt'
      · rw [if_neg hgt]
        exact branchList_total cs b fun nd hnd hnt' =>
          hd nd (mem_preorder_of_child r cs fn na idf vn nd hnd) hnt'
    · rw [if_neg hnt]
      rfl

theorem branchList_total : ∀ (ts : List Tree) (b : Dict),
    (∀ nd ∈ preorderList ts, is_nonterminal nd.root = true →
      (dictGet nd.root b).isSome = true) →
    (branchList ts b).isSome = true
  | [], b => by
    intro _
    rfl
  | t :: ts, b => by
    intro hd
    simp only [branchList]
    have h1 : (branchNode t b).isSome = true :=
      branchNode_total t b fun nd hnd h =>
        hd nd (by rw [preorderList]; exact List.mem_append_left _ hnd) h
    obtain ⟨b1, hb1⟩ := Option.isSome_iff_exists.mp h1
    rw [hb1]
    refine branchList_total ts b1 fun nd hnd h => ?_
    rw [branchNode_profile t b b1 hb1]
    exact hd nd (by rw [preorderList]; exact List.mem_append_right _ hnd) h

end

theorem branchList_abort_of_mem (K : List String) (c : Tree)
    (hcnone : ∀ b : Dict, (∀ n, (dictGet n b).isSome = true ↔ n ∈ K) →
      branchNode c b = none) :
    ∀ (cs : List Tree), c ∈ cs → ∀ b : Dict,
      (∀ n, (dictGet n b).isSome = true ↔ n ∈ K) → branchList cs b = none := by
  intro cs
  induction cs with
  | nil => intro h; cases h
  | cons t' rest ihl =>
    intro hmem b hb
    rcases List.mem_cons.mp hmem with rfl | hmem'
    · simp [branchList, hcnone b hb]
    · cases hg : branchNode t' b with
      | none => simp [branchList, hg]
      | some b2 =>
        have hb2 : ∀ n, (dictGet n b2).isSome = true ↔ n ∈ K := fun n => by
          rw [branchNode_profile t' b b2 hg n]
          exact hb n
        simp [branchList, hg, ihl hmem' b2 hb2]

theorem branchNode_abort (K : List String) (t : Tree) (h : ReachBad K t) :
    ∀ b : Dict, (∀ n, (dictGet n b).isSome = true ↔ n ∈ K) →
      branchNode t b = none := by
  induction h with
  | here r cs fn na idf vn hnt hnot =>
    intro b hb
    have hg : dictGet r b = none := by
      rcases hgg : dictGet r b with _ | v
      · rfl
      · exact absurd ((hb r).mp (by rw [hgg]; rfl)) hnot
    simp [branchNode, hnt, hg]
  | deeper r cs fn na idf vn c hnt hc hrb ih =>
    intro b hb
    simp only [branchNode, if_pos hnt]
    cases hg : dictGet r b with
    | none => rfl
    | some cur =>
      show branchList cs
        (if cs.length > cur then dictSet r cs.length b else b) = none
      by_cases hgt : cs.length > cur
      · rw [if_pos hgt]
        refine branchList_abort_of_mem K c ih cs hc _ fun n => ?_
        rw [isSome_dictGet_dictSet]
        exact hb n
      · rw [if_neg hgt]
        exact branchList_abort_of_mem K c ih cs hc b hb

theorem mem_preorderList_left (t : Tree) (ts : List Tree) (nd : Tree)
    (h : nd ∈ preorder t) : nd ∈ preorderList (t :: ts) := by
  rw [preorderList]
  exact List.mem_append_left _ h

theorem mem_preorderList_right (t : Tree) (ts : List Tree) (nd : Tree)
    (h : nd ∈ preorderList ts) : nd ∈ preorderList (t :: ts) := by
  rw [preorderList]
  exact List.mem_append_right _ h

theorem foldSel_acc (n : String) (l : List Tree) (acc : Nat) :
    l.foldr (fun nd a => if nd.root = n then max nd.children.length a else a) acc
      = max (l.foldr
          (fun nd a => if nd.root = n then max nd.children.length a else a) 0)
          acc := by
  induction l with
  | nil => simp
  | cons x xs ih =>
    simp only [List.foldr_cons, ih]
    by_cases hx : x.root = n
    · simp [hx, Nat.max_assoc]
    · simp [hx]

theorem maxChForest_cons (t : Tree) (ts : List Tree) (n : String) :
    maxChForest (t :: ts) n = max (maxChT t n) (maxChForest ts n) := rfl

theorem maxChForest_pre (n : String) (cs : List Tree) :
    (preorderList cs).foldr
        (fun nd a => if nd.root = n then max nd.children.length a else a) 0
      = maxChForest cs n := by
  induction cs with
  | nil => simp [preorderList, maxChForest]
  | cons t ts ih =>
    rw [preorderList, List.foldr_append, ih, foldSel_acc, maxChForest_cons,
      maxChT]

theorem maxChT_node (r : String) (cs : List Tree) (fn na : Bool)
    (idf vn : Option String) (n : String) :
    maxChT (.node r cs fn na idf vn) n
      = if r = n then max cs.length (maxChForest cs n) else maxChForest cs n := by
  rw [maxChT, preorder, List.foldr_cons, maxChForest_pre]
  simp only [Tree.root, Tree.children]

mutual

theorem branchNode_value : ∀ (t : Tree) (b : Dict),
    (∀ nd ∈ preorder t, is_nonterminal nd.root = true →
      (dictGet nd.root b).isSome = true) →
    (∀ nd ∈ preorder t, is_nonterminal nd.root = false → nd.children = []) →
    ∃ b', branchNode t b = some b' ∧
      ∀ n, dictGet n b' = (dictGet n b).map fun v => max v (maxChT t n)
  | .node r cs fn na idf vn, b => by
    intro hdecl hleaf
    by_cases hnt : is_nonterminal r
    · have hr := hdecl (.node r cs fn na idf vn)
        (mem_preorder_self r cs fn na idf vn) (by simpa [Tree.root] using hnt)
      rw [Tree.root] at hr
      obtain ⟨cur, hcur⟩ := Option.isSome_iff_exists.mp hr
      have hb1 : ∀ n,
          dictGet n (if cs.length > cur then dictSet r cs.length b else b)
            = if r = n then some (max cur cs.length) else dictGet n b := by
        intro n
        by_cases hgt : cs.length > cur
        · rw [if_pos hgt]
          by_cases hrn : r = n
          · subst hrn
            rw [if_pos rfl, dictGet_dictSet_self r cs.length b hr,
              Nat.max_eq_right (Nat.le_of_lt hgt)]
          · rw [if_neg hrn, dictGet_dictSet_other r cs.length n b hrn]
        · rw [if_neg hgt]
          by_cases hrn : r = n
          · subst hrn
            rw [if_pos rfl, hcur, Nat.max_eq_left (Nat.le_of_not_lt hgt)]
          · rw [if_neg hrn]
      have hb1some : ∀ n,
          (dictGet n (if cs.length > cur then dictSet r cs.length b else b)).isSome
            = (dictGet n b).isSome := by
        intro n
        rw [hb1 n]
        by_cases hrn : r = n
        · subst hrn
          rw [if_pos rfl, hcur]
          rfl
        · rw [if_neg hrn]
      obtain ⟨b', hbl, hchar⟩ := branchList_value cs
        (if cs.length > cur then dictSet r cs.length b else b)
        (fun nd hnd h => by
          rw [hb1some]
          exact hdecl nd (mem_preorder_of_child r cs fn na idf vn nd hnd) h)
        (fun nd hnd h =>
          hleaf nd (mem_preorder_of_child r cs fn na idf vn nd hnd) h)
      refine ⟨b', ?_, ?_⟩
      · simp only [branchNode, if_pos hnt]
        rw [hcur]
        exact hbl
      · intro n
        rw [hchar n, hb1 n, maxChT_node]
        by_cases hrn : r = n
        · subst hrn
          rw [if_pos rfl, if_pos rfl, hcur]
          simp [Nat.max_assoc]
        · rw [if_neg hrn, if_neg hrn]
    · have hcs : cs = [] := by
        have := hleaf (.node r cs fn na idf vn)
          (mem_preorder_self r cs fn na idf vn)
          (by simpa [Tree.root] using hnt)
        simpa [Tree.children] using this
      subst hcs
      refine ⟨b, by simp [branchNode, hnt], fun n => ?_⟩
      have hmax : maxChT (.node r [] fn na idf vn) n = 0 := by
        rw [maxChT_node]
        have : maxChForest ([] : List Tree) n = 0 := rfl
        simp [this]
      rw [hmax]
      cases dictGet n b <;> simp

theorem branchList_value : ∀ (ts : List Tree) (b : Dict),
    (∀ nd ∈ preorderList ts, is_nonterminal nd.root = true →
      (dictGet nd.root b).isSome = true) →
    (∀ nd ∈ preorderList ts, is_nonterminal nd.root = false → nd.children = []) →
    ∃ b', branchList ts b = some b' ∧
      ∀ n, dictGet n b' = (dictGet n b).map fun v => max v (maxChForest ts n)
  | [], b => by
    intro _ _
    refine ⟨b, rfl, fun n => ?_⟩
    have h0 : maxChForest ([] : List Tree) n = 0 := rfl
    rw [h0]
    cases dictGet n b <;> simp
  | t :: ts, b => by
    intro hdecl hleaf
    obtain ⟨b1, hb1, hchar1⟩ := branchNode_value t b
      (fun nd hnd h => hdecl nd (mem_preorderList_left t ts nd hnd) h)
      (fun nd hnd h => hleaf nd (mem_preorderList_left t ts nd hnd) h)
    have hb1some : ∀ n, (dictGet n b1).isSome = (dictGet n b).isSome := fun n => by
      rw [hchar1 n]
      cases dictGet n b <;> rfl
    obtain ⟨b', hb', hchar2⟩ := branchList_value ts b1
      (fun nd hnd h => by
        rw [hb1some]
        exact hdecl nd (mem_preorderList_right t ts nd hnd) h)
      (fun nd hnd h => hleaf nd (mem_preorderList_right t ts nd hnd) h)
    refine ⟨b', ?_, fun n => ?_⟩
    · simp only [branchList]
      rw [hb1]
      exact hb'
    · rw [hchar2 n, hchar1 n, maxChForest_cons]
      cases dictGet n b with
      | none => rfl
      | some v => simp [Nat.max_assoc]

end

theorem dictGet_dictInsert_self (k : String) (v : Nat) (d : Dict) :
    dictGet k (dictInsert k v d) = some v := by
  rw [dictInsert]
  by_cases hm : k ∈ d.map Prod.fst
  · rw [if_pos hm]
    exact dictGet_dictSet_self k v d ((isSome_dictGet_iff_mem k d).mpr hm)
  · rw [if_neg hm]
    have hnone : dictGet k d = none := by
      rcases h : dictGet k d with _ | v'
      · rfl
      · exact absurd ((isSome_dictGet_iff_mem k d).mp (by rw [h]; rfl)) hm
    simp [dictGet_append, hnone, dictGet]

theorem dictGet_dictInsert_other (k : String) (v : Nat) (n : String) (d : Dict)
    (h : k ≠ n) : dictGet n (dictInsert k v d) = dictGet n d := by
  rw [dictInsert]
  by_cases hm : k ∈ d.map Prod.fst
  · rw [if_pos hm]
    exact dictGet_dictSet_other k v n d h
  · rw [if_neg hm]
    rw [dictGet_append]
    cases dictGet n d <;> simp [dictGet, h]

theorem dictGet_foldl_insert (ks : List String) (n : String) :
    ∀ d : Dict, dictGet n (ks.foldl (fun d k => dictInsert k 0 d) d)
      = if n ∈ ks then some 0 else dictGet n d := by
  induction ks with
  | nil => intro d; simp
  | cons k ks ih =>
    intro d
    rw [List.foldl_cons, ih]
    by_cases hnk : n = k
    · subst hnk
      rw [if_pos (List.mem_cons_self _ _)]
      by_cases hns : n ∈ ks
      · rw [if_pos hns]
      · rw [if_neg hns, dictGet_dictInsert_self]
    · by_cases hns : n ∈ ks
      · rw [if_pos hns, if_pos (List.mem_cons_of_mem _ hns)]
      · have hno : n ∉ k :: ks := by
          rw [List.mem_cons]
          rintro (h | h)
          · exact hnk h
          · exact hns h
        rw [if_neg hns, if_neg hno,
          dictGet_dictInsert_other k 0 n d fun h => hnk h.symm]

theorem dictGet_dictOfKeys (ks : List String) (n : String) :
    dictGet n (dictOfKeys ks) = if n ∈ ks then some 0 else none := by
  rw [dictOfKeys, dictGet_foldl_insert]
  split <;> rfl

theorem keys_dictInsert (k : String) (v : Nat) (d : Dict) :
    (dictInsert k v d).map Prod.fst
      = if k ∈ d.map Prod.fst then d.map Prod.fst
        else d.map Prod.fst ++ [k] := by
  rw [dictInsert]
  by_cases hm : k ∈ d.map Prod.fst
  · rw [if_pos hm, if_pos hm, keys_dictSet]
  · rw [if_neg hm, if_neg hm]
    simp

theorem keys_nodup_foldl (ks : List String) :
    ∀ d : Dict, (d.map Prod.fst).Nodup →
      ((ks.foldl (fun d k => dictInsert k 0 d) d).map Prod.fst).Nodup := by
  induction ks with
  | nil => intro d h; simpa using h
  | cons k ks ih =>
    intro d h
    rw [List.foldl_cons]
    refine ih _ ?_
    rw [keys_dictInsert]
    by_cases hm : k ∈ d.map Prod.fst
    · rw [if_pos hm]
      exact h
    · rw [if_neg hm]
      simp [List.nodup_append, h, hm]

theorem keys_dictOfKeys_nodup (ks : List String) :
    ((dictOfKeys ks).map Prod.fst).Nodup :=
  keys_nodup_foldl ks [] (by simp)

theorem mem_iff_dictGet (d : Dict) (hnd : (d.map Prod.fst).Nodup)
    (n : String) (v : Nat) : (n, v) ∈ d ↔ dictGet n d = some v := by
  induction d with
  | nil => simp [dictGet]
  | cons p rest ih =>
    obtain ⟨k, v'⟩ := p
    simp only [List.map_cons, List.nodup_cons] at hnd
    by_cases hk : k = n
    · subst hk
      simp only [dictGet, List.mem_cons, eq_self_iff_true, if_true,
        Option.some.injEq]
      constructor
      · rintro (h | h)
        · injection h with h1 h2
          exact h2.symm
        · exact absurd (List.mem_map_of_mem Prod.fst h) hnd.1
      · rintro rfl
        exact Or.inl rfl
    · simp only [dictGet, if_neg hk, List.mem_cons]
      rw [← ih hnd.2]
      constructor
      · rintro (h | h)
        · injection h with h1 h2
          exact absurd h1.symm hk
        · exact h
      · exact fun h => Or.inr h

/-- C6 counterexample: in `hiddenBranchTAG` the only `NP`-labeled node
has two children, so the claim demands constructor constants `NP_1` and
`NP_2`; but that node sits below a terminal-labeled node, the branching
traversal never reaches it, and the emitted constant list is empty. -/
theorem hidden_branch_counterexample :
    "NP" ∈ hiddenBranchTAG.nonterminals ∧
    maxChildrenSpec hiddenBranchTAG "NP" = 2 ∧
    generateDerivedTreeConstants hiddenBranchTAG = some [] ∧
    ("NP_2", 2) ∉ (generateDerivedTreeConstants hiddenBranchTAG).getD [] := by
  refine ⟨by decide, by decide, by decide, by decide⟩

/-- C6 amended: provided every uppercase-initial symbol occurring in the
trees is a declared nonterminal (otherwise the branching analysis aborts,
cf. C10) and every terminal-labeled node is a leaf (the branching
traversal does not descend below terminal-labeled nodes), the analysis
succeeds and the emitted constructor records are exactly, for each
nonterminal `N`, the symbols `N_k` for `1 ≤ k ≤ maxChildren(N)`, each of
which lands in the Derived_trees signature with type
`tree -> ... -> tree` built from `k + 1` occurrences of `tree`. -/
theorem derived_constructor_constants (tag : TAG)
    (h1 : allUpperDeclared tag) (h2 : termLeaves tag) :
    ∃ cs, generateDerivedTreeConstants tag = some cs ∧
      (∀ sym sz, ((sym, sz) ∈ cs ↔
        ∃ n, n ∈ tag.nonterminals ∧ 1 ≤ sz ∧ sz ≤ maxChildrenSpec tag n ∧
          sym = n ++ "_" ++ toString sz)) ∧
      generateDerivedTrees tag = some (derivedTreesSigOf tag cs) ∧
      (∀ sym sz, (sym, sz) ∈ cs →
        (sym, treeTypeOfLength (sz + 1))
          ∈ (derivedTreesSigOf tag cs).constants) := by
  have hdecl : ∀ nd ∈ preorderList (tag.initials ++ tag.auxiliaries),
      is_nonterminal nd.root = true →
      (dictGet nd.root (dictOfKeys tag.nonterminals)).isSome = true := by
    intro nd hnd h
    obtain ⟨t, ht, hnd'⟩ := (mem_preorderList _ nd).mp hnd
    have hmem := h1 t ht nd hnd' h
    rw [dictGet_dictOfKeys, if_pos hmem]
    rfl
  have hleaf : ∀ nd ∈ preorderList (tag.initials ++ tag.auxiliaries),
      is_nonterminal nd.root = false → nd.children = [] := by
    intro nd hnd h
    obtain ⟨t, ht, hnd'⟩ := (mem_preorderList _ nd).mp hnd
    exact List.isEmpty_iff.mp (h2 t ht nd hnd' h)
  obtain ⟨b', hb', hchar⟩ := branchList_value _ _ hdecl hleaf
  have hrun : branchForest (tag.initials ++ tag.auxiliaries)
      (dictOfKeys tag.nonterminals) = some b' := by
    rw [branchForest_eq_branchList]
    exact hb'
  have hkeys : b'.map Prod.fst = (dictOfKeys tag.nonterminals).map Prod.fst :=
    branchList_keys _ _ _ hb'
  have hnd' : (b'.map Prod.fst).Nodup := by
    rw [hkeys]
    exact keys_dictOfKeys_nodup tag.nonterminals
  have hval : ∀ n, n ∈ tag.nonterminals →
      dictGet n b' = some (maxChildrenSpec tag n) := by
    intro n hn
    rw [hchar n, dictGet_dictOfKeys, if_pos hn]
    simp [maxChildrenSpec]
  have hvalnone : ∀ n, n ∉ tag.nonterminals → dictGet n b' = none := by
    intro n hn
    rw [hchar n, dictGet_dictOfKeys, if_neg hn]
    rfl
  have hmemkeys : ∀ n, n ∈ b'.map Prod.fst ↔ n ∈ tag.nonterminals := by
    intro n
    rw [← isSome_dictGet_iff_mem]
    constructor
    · intro h
      by_contra hn
      rw [hvalnone n hn] at h
      cases h
    · intro hn
      rw [hval n hn]
      rfl
  refine ⟨b'.flatMap fun p =>
      (List.range p.2).map fun idx => (p.1 ++ "_" ++ toString (idx + 1), idx + 1),
    ?_, ?_, ?_, ?_⟩
  · rw [generateDerivedTreeConstants, hrun]
    rfl
  · intro sym sz
    constructor
    · intro hmem
      rw [List.mem_flatMap] at hmem
      obtain ⟨⟨n, v⟩, hp, hin⟩ := hmem
      rw [List.mem_map] at hin
      obtain ⟨idx, hidx, heq⟩ := hin
      rw [List.mem_range] at hidx
      injection heq with hsym hsz
      have hn : n ∈ tag.nonterminals := by
        rw [← hmemkeys]
        exact List.mem_map_of_mem Prod.fst hp
      have hv : v = maxChildrenSpec tag n := by
        have hg := (mem_iff_dictGet b' hnd' n v).mp hp
        rw [hval n hn] at hg
        injection hg with hg'
        exact hg'.symm
      refine ⟨n, hn, by omega, by omega, ?_⟩
      rw [← hsz]
      exact hsym.symm
    · rintro ⟨n, hn, hsz1, hsz2, hsym⟩
      rw [List.mem_flatMap]
      refine ⟨(n, maxChildrenSpec tag n), ?_, ?_⟩
      · rw [mem_iff_dictGet b' hnd']
        exact hval n hn
      · rw [List.mem_map]
        refine ⟨sz - 1, List.mem_range.mpr (by omega), ?_⟩
        have hsz' : sz - 1 + 1 = sz := by omega
        rw [hsz', hsym]
  · rw [generateDerivedTrees, generateDerivedTreeConstants, hrun]
    rfl
  · intro sym sz hmem
    simp only [derivedTreesSigOf]
    refine List.mem_append_left _ (List.mem_append_right _ ?_)
    simpa using List.mem_map_of_mem
      (fun p : String × Nat => (p.1, treeTypeOfLength (p.2 + 1))) hmem

/-- Witness for C6: on the tiny grammar the amended theorem instantiates
to the concrete constant list `[("S_1", 1)]`. -/
theorem derived_constructor_constants_witness :
    generateDerivedTrees (mkTAG tinyInput)
      = some (derivedTreesSigOf (mkTAG tinyInput) [("S_1", 1)]) := by
  obtain ⟨cs, hcs, hiff, hsig, hty⟩ :=
    derived_constructor_constants (mkTAG tinyInput)
      (by unfold allUpperDeclared; decide) (by unfold termLeaves; decide)
  have h2 : generateDerivedTreeConstants (mkTAG tinyInput)
      = some [("S_1", 1)] := by decide
  rw [hcs] at h2
  injection h2 with h3
  rw [h3] at hsig
  exact hsig

/-- C10 counterexample: `hiddenUpperTAG` contains the uppercase symbol
`Q` which is not a declared nonterminal, yet the branching analysis
succeeds, because `Q` sits below a terminal-labeled node and the
traversal never looks it up. -/
theorem hidden_upper_counterexample :
    hasUndeclaredUpper hiddenUpperTAG ∧
    (generateDerivedTreeConstants hiddenUpperTAG).isSome = true := by
  refine ⟨by unfold hasUndeclaredUpper; decide, by decide⟩

/-- C10 amended: when every uppercase symbol in the trees is declared,
the branching lookup never fails and the analysis is total; and when some
tree contains an undeclared uppercase symbol at a node reachable through
nonterminal-labeled ancestors, the lookup's error branch is reached and
the analysis aborts instead of producing constructor constants. -/
theorem branching_lookup_safety :
    (∀ tag : TAG, allUpperDeclared tag →
      (generateDerivedTreeConstants tag).isSome = true) ∧
    (∀ tag : TAG, hasReachableUndeclared tag →
      generateDerivedTreeConstants tag = none) := by
  constructor
  · intro tag h1
    rw [generateDerivedTreeConstants, branchForest_eq_branchList]
    have hdecl : ∀ nd ∈ preorderList (tag.initials ++ tag.auxiliaries),
        is_nonterminal nd.root = true →
        (dictGet nd.root (dictOfKeys tag.nonterminals)).isSome = true := by
      intro nd hnd h
      obtain ⟨t, ht, hnd'⟩ := (mem_preorderList _ nd).mp hnd
      rw [dictGet_dictOfKeys, if_pos (h1 t ht nd hnd' h)]
      rfl
    obtain ⟨b', hb'⟩ :=
      Option.isSome_iff_exists.mp (branchList_total _ _ hdecl)
    rw [hb']
    rfl
  · rintro tag ⟨t, ht, hrb⟩
    have hb0 : ∀ n, (dictGet n (dictOfKeys tag.nonterminals)).isSome = true
        ↔ n ∈ tag.nonterminals := by
      intro n
      rw [dictGet_dictOfKeys]
      by_cases hn : n ∈ tag.nonterminals
      · simp [hn]
      · simp [hn]
    have habort := branchList_abort_of_mem tag.nonterminals t
      (branchNode_abort tag.nonterminals t hrb)
      (tag.initials ++ tag.auxiliaries) ht (dictOfKeys tag.nonterminals) hb0
    rw [generateDerivedTreeConstants, branchForest_eq_branchList, habort]
    rfl

/-- Witness for C10: the tiny well-scoped grammar passes the analysis;
the grammar whose initial tree's root is the undeclared `Q` aborts. -/
theorem branching_lookup_safety_witness :
    (generateDerivedTreeConstants (mkTAG tinyInput)).isSome = true ∧
    generateDerivedTreeConstants badRootTAG = none := by
  have hmem : Tree.node "Q" [] false false (some "C_TI0") none
      ∈ badRootTAG.initials ++ badRootTAG.auxiliaries := by
    show Tree.node "Q" [] false false (some "C_TI0") none
      ∈ [Tree.node "Q" [] false false (some "C_TI0") none]
    exact List.mem_singleton_self _
  exact ⟨branching_lookup_safety.1 (mkTAG tinyInput)
      (by unfold allUpperDeclared; decide),
    branching_lookup_safety.2 badRootTAG
      ⟨Tree.node "Q" [] false false (some "C_TI0") none, hmem,
        ReachBad.here "Q" [] false false (some "C_TI0") none
          (by decide) (by decide)⟩⟩

set_option maxRecDepth 100000 in
/-- Witness for C9: two concrete runs on the tiny input, both producing
the document the pipeline computes. -/
theorem compiler_deterministic_witness :
    Run tinyInput ((compileDoc tinyInput).getD "")
      ∧ ((compileDoc tinyInput).getD "") = ((compileDoc tinyInput).getD "") :=
  ⟨⟨mkTAG tinyInput, rfl, by decide⟩,
   compiler_deterministic tinyInput _ _
     ⟨mkTAG tinyInput, rfl, by decide⟩ ⟨mkTAG tinyInput, rfl, by decide⟩⟩

end AcgTag
